import Mathlib

/-!
Verification development for the wtex documentation parser
(src/Mopy/mash/wtexparser.py).

The Python module is embedded shallowly:

* class `Text` becomes `Span` (a record of the attributes the parser ever
  sets: `text`, `bold`, `italic` and the optional `href`), with
  `Text.mergeWith` becoming `mergeWith`;
* the `Node` trees become the mutually inductive rose trees
  `NTree`/`NForest` (children of a node are `NForest`); `TextNode` payloads
  are span lists, `HeadingNode` payloads are `HInfo` (title plus the
  optional private text tree);
* the regular-expression driven scanner of `Parser.parseText` is embedded
  alternative by alternative (`tryFmt`, `tryLinkPiped`, `tryLinkBare`,
  `plainRun`), reproducing Python `re.match` semantics for the concrete
  patterns of the source: leftmost alternative wins, greedy `(.*)` takes
  the last closing marker, `[^x]*` stops at the first `x`, and the lazy
  tail alternative stops at the first formatting opener.  Lines handed to
  the scanner by `parseString` never contain a newline, so `.` is embedded
  as "any character";
* `Parser.insert` walks parent pointers; the live parser state is embedded
  as a zipper: the spine of frames from the current cursor down to the
  root (`Frame`, `insert`, `collapseSpine`).  Walking up one parent pops
  one frame, attaching the completed subtree to its parent's children;
* Python exceptions surface as `Except PyErr`: `AttributeError` is raised
  by the source both when `re.match` returns `None` (`None.group`) and
  when a text line arrives while `currentHeading` is the bare root `Node`
  (which has no `textNode` attribute); `AssertionError` is the failed
  assert in `Parser.insert`;
* `Text.decorate` iterates `vars(self)` — a CPython 2 attribute dict.
  For the concrete keys `text`, `bold`, `italic`, `href` the CPython 2.7
  string hashes put them in slots 1, 5, 6, 3 of the 8-slot table (the
  same on 32-bit and 64-bit builds, no collisions, hash randomization is
  off by default), so the iteration order is `text`, `href`, `bold`,
  `italic`; `decorate` hard-codes that order.

All recursion is structural (fuel-based where the source loops), so every
definition evaluates inside the kernel.
-/

namespace Wtex

/-! ### Spans: class `Text` -/

/-- A run of formatted text: the attributes class `Text` carries.  `href`
is `none` when the Python object has no `href` attribute. -/
structure Span where
  text : List Char
  bold : Bool
  italic : Bool
  href : Option (List Char)
deriving DecidableEq

/-- embeds `Text.mergeWith`: each attribute of `other` is merged into
`self` by Python `or` (kept if already truthy, else taken from `other`);
an attribute missing from `self` (an absent `href`) is copied. -/
def mergeWith (self other : Span) : Span :=
  { text := if self.text = [] then other.text else self.text
    bold := self.bold || other.bold
    italic := self.italic || other.italic
    href :=
      match self.href, other.href with
      | some h, some h2 => some (if h = [] then h2 else h)
      | some h, none => some h
      | none, some h2 => some h2
      | none, none => none }

/-! ### Node trees -/

mutual
/-- embeds class `Node`: an integer level, a payload (the extra attributes
of `HeadingNode` / `TextNode`) and an ordered list of children.  The
parent back-reference of the source is represented by containment. -/
inductive NTree (α : Type) : Type
  | node : Nat → α → NForest α → NTree α
inductive NForest (α : Type) : Type
  | nil : NForest α
  | cons : NTree α → NForest α → NForest α
end

variable {α : Type}

def NTree.level : NTree α → Nat
  | .node l _ _ => l

def NTree.payload : NTree α → α
  | .node _ p _ => p

def NTree.children : NTree α → NForest α
  | .node _ _ cs => cs

def NForest.append : NForest α → NForest α → NForest α
  | .nil, g => g
  | .cons t ts, g => .cons t (NForest.append ts g)

def NForest.toList : NForest α → List (NTree α)
  | .nil => []
  | .cons t ts => t :: NForest.toList ts

/-! ### Tree traversal -/

mutual
/-- embeds `dfFlattenNodeTree`: pre-order depth-first flattening, pruning
a whole subtree when `maxLevel != 0 and heading.level > maxLevel`. -/
def dfFlattenNodeTree : NTree α → Nat → List (NTree α)
  | .node l p cs, maxLevel =>
    if maxLevel ≠ 0 ∧ maxLevel < l then []
    else .node l p cs :: dfFlattenForest cs maxLevel
def dfFlattenForest : NForest α → Nat → List (NTree α)
  | .nil, _ => []
  | .cons t ts, maxLevel => dfFlattenNodeTree t maxLevel ++ dfFlattenForest ts maxLevel
end

/-- embeds `dfFlattenDescendants`: flattens the children's subtrees,
excluding the node itself. -/
def dfFlattenDescendants (t : NTree α) (maxLevel : Nat) : List (NTree α) :=
  dfFlattenForest t.children maxLevel

mutual
/-- levels are consecutive down the tree: every child's stored level is
its parent's level plus one (the invariant the Tree Inserter maintains). -/
def consecutiveT : NTree α → Bool
  | .node l _ cs => consecutiveF l cs
def consecutiveF : Nat → NForest α → Bool
  | _, .nil => true
  | l, .cons t ts => decide (t.level = l + 1) && consecutiveT t && consecutiveF l ts
end

/-! ### The inline formatter: `Parser.parseText`

The scanner regex of the source is

  `__(.*)__|~~(.*)~~|\*\*(.*)\*\*|\[\[([^\|]*)\|([^\]]*)\]\]|\[\[([^\]]*)\]\]|(.*?(?=\*\*|__|~~|\[\[|$))`

matched with `re.match` against the remaining text.  Each alternative is
embedded separately; `stepMatch` tries them left to right and returns the
length of the whole match together with the `Text` object the loop body
would append (`none` when `matchText` is `None` or empty, in which case
nothing is appended). -/

/-- index of the last position of `l` at which the two-character marker
`m m` occurs (the greedy `(.*)` backtracks from the right). -/
def rfindPair (m : Char) : List Char → Option Nat
  | c1 :: c2 :: rest =>
    match rfindPair m (c2 :: rest) with
    | some j => some (j + 1)
    | none => if c1 = m ∧ c2 = m then some 0 else none
  | _ => none

/-- index of the first element satisfying `p` (how `[^x]*` followed by `x`
matches: the starred class cannot cross an `x`). -/
def firstIdx (p : Char → Bool) : List Char → Option Nat
  | [] => none
  | c :: cs => if p c then some 0 else (firstIdx p cs).map (fun j => j + 1)

/-- does a formatting opener (`**`, `__`, `~~` or `[[`) start here? -/
def isOpener (a b : Char) : Bool :=
  decide ((a = '*' ∧ b = '*') ∨ (a = '_' ∧ b = '_') ∨ (a = '~' ∧ b = '~') ∨ (a = '[' ∧ b = '['))

/-- position of the first formatting opener, or the length of the list if
there is none: where the lazy `.*?(?=\*\*|__|~~|\[\[|$)` stops. -/
def findOpener : List Char → Nat
  | [] => 0
  | [_] => 1
  | a :: b :: rest => if isOpener a b then 0 else 1 + findOpener (b :: rest)

/-- one paired-marker alternative `mm(.*)mm`: requires the list to start
with the marker and the marker to occur again; the greedy group runs to
the last occurrence.  An empty group means `matchText` is falsy, so no
span is produced (but the scan still advances). -/
def tryFmt (m : Char) (mk : List Char → Span) : List Char → Option (Nat × Option Span)
  | c1 :: c2 :: rest =>
    if c1 = m ∧ c2 = m then
      match rfindPair m rest with
      | some j => some (j + 4, if rest.take j = [] then none else some (mk (rest.take j)))
      | none => none
    else none
  | _ => none

def mkBold (g : List Char) : Span := { text := g, bold := true, italic := false, href := none }

def mkItalic (g : List Char) : Span := { text := g, bold := false, italic := true, href := none }

def mkBoth (g : List Char) : Span := { text := g, bold := true, italic := true, href := none }

/-- span built for a piped link `[[href|text]]`: `href` is kept only when
non-empty (Python `if linkHref or onlyLinkText`), and a href of exactly
`#` is rewritten to `#` followed by the display text without spaces. -/
def mkLinkSpan (href txt : List Char) : Span :=
  { text := txt, bold := false, italic := false
    href :=
      if href = [] then none
      else some (if href = ['#'] then '#' :: txt.filter (fun c => c != ' ') else href) }

/-- the alternative `\[\[([^\|]*)\|([^\]]*)\]\]`. -/
def tryLinkPiped : List Char → Option (Nat × Option Span)
  | c1 :: c2 :: rest =>
    if c1 = '[' ∧ c2 = '[' then
      match firstIdx (fun c => c == '|') rest with
      | some i =>
        let rest2 := rest.drop (i + 1)
        match firstIdx (fun c => c == ']') rest2 with
        | some j =>
          match rest2.drop (j + 1) with
          | ']' :: _ =>
            some (i + j + 5,
              if rest2.take j = [] then none
              else some (mkLinkSpan (rest.take i) (rest2.take j)))
          | _ => none
        | none => none
      | none => none
    else none
  | _ => none

/-- the alternative `\[\[([^\]]*)\]\]`: target and text coincide. -/
def tryLinkBare : List Char → Option (Nat × Option Span)
  | c1 :: c2 :: rest =>
    if c1 = '[' ∧ c2 = '[' then
      match firstIdx (fun c => c == ']') rest with
      | some j =>
        match rest.drop (j + 1) with
        | ']' :: _ =>
          some (j + 4,
            if rest.take j = [] then none else some (mkLinkSpan (rest.take j) (rest.take j)))
        | _ => none
      | none => none
    else none
  | _ => none

/-- the trailing alternative `(.*?(?=\*\*|__|~~|\[\[|$))`: a possibly
empty plain run up to the first opener.  A zero-length match produces no
span and makes the scanning loop break. -/
def plainRun (s : List Char) : Nat × Option Span :=
  let p := findOpener s
  (p, if s.take p = [] then none
      else some { text := s.take p, bold := false, italic := false, href := none })

/-- one `re.match` of the scanner regex: alternatives tried left to
right. -/
def stepMatch (s : List Char) : Nat × Option Span :=
  match tryFmt '_' mkBold s with
  | some r => r
  | none =>
    match tryFmt '~' mkItalic s with
    | some r => r
    | none =>
      match tryFmt '*' mkBoth s with
      | some r => r
      | none =>
        match tryLinkPiped s with
        | some r => r
        | none =>
          match tryLinkBare s with
          | some r => r
          | none => plainRun s

/-- the `while text:` scanning loop of `parseText`, with explicit fuel
(every iteration consumes at least one character, so `s.length` steps
suffice; see `scanF_fuel`).  A zero-length match breaks the loop. -/
def scanF : Nat → List Char → List Span
  | 0, _ => []
  | fuel + 1, s =>
    match s with
    | [] => []
    | c :: cs =>
      let m := stepMatch (c :: cs)
      if m.1 = 0 then [] else m.2.toList ++ scanF fuel ((c :: cs).drop m.1)

/-- the scanning loop at its sufficient fuel. -/
def scan (s : List Char) : List Span := scanF s.length s

/-- the fixed-point base case of `parseText`: exactly one span whose text
is the whole input. -/
def isBase (result : List Span) (s : List Char) : Bool :=
  match result with
  | [r] => decide (r.text = s)
  | _ => false

/-- sequences the recursive re-parses of the merge loop: any failure
(fuel exhaustion) propagates. -/
def seqSpans : List (Option (List Span)) → Option (List Span)
  | [] => some []
  | o :: os => o.bind (fun l => (seqSpans os).map (fun rest => l ++ rest))

/-- embeds `Parser.parseText` with fuel bounding the recursive re-parse
depth: scan the text, stop at the fixed point, otherwise re-parse each
span's text and merge the outer span's attributes onto the inner spans.
`none` means the fuel ran out (`parseTextF_isSome` shows `length + 1`
always suffices). -/
def parseTextF : Nat → List Char → Option (List Span)
  | 0, _ => none
  | fuel + 1, s =>
    let result := scan s
    if isBase result s then some result
    else
      seqSpans (result.map (fun r =>
        (parseTextF fuel r.text).map (List.map (fun nr => mergeWith nr r))))

/-- embeds `Parser.parseText` (total: run at sufficient fuel). -/
def parseText (s : List Char) : List Span :=
  (parseTextF (s.length + 1) s).getD []

/-! ### The tree inserter and the parser state

The source keeps cursors (`currentHeading`, `currentText`) into mutable
trees and `Parser.insert` walks parent pointers upward.  Every node the
cursor can reach lies on the rightmost spine of its tree, so the live
tree is embedded as a zipper: the list of frames from the cursor (head)
down to the root (last).  Walking up one parent closes the top frame into
a tree and appends it to its parent's children — exactly the tree shape
the mutated Python objects have. -/

/-- Python exceptions `parseString` can raise. -/
inductive PyErr : Type
  | attributeError : PyErr
  | assertionError : PyErr
deriving DecidableEq

/-- one node on the cursor's spine: the node's own attributes plus the
children completed so far. -/
structure Frame (α : Type) : Type where
  level : Nat
  payload : α
  children : NForest α

/-- turns a finished frame into the tree node it denotes. -/
def closeFrame (f : Frame α) : NTree α :=
  NTree.node f.level f.payload f.children

/-- appends a completed child (Python `currentNode.children.append`). -/
def pushChild (f : Frame α) (t : NTree α) : Frame α :=
  { f with children := f.children.append (NForest.cons t NForest.nil) }

/-- the upward walk of `Parser.insert`, with the current node held apart
from the rest of the spine so the recursion is structural.  Branch order
mirrors the source: exact child level, else walk up (the failed assert
when there is no parent), else clamp the new node to `current.level + 1`. -/
def insertAux (level : Nat) (create : Frame α) : Frame α → List (Frame α) → Except PyErr (List (Frame α))
  | cur, rest =>
    if level = cur.level + 1 then
      .ok (create :: cur :: rest)
    else if level ≤ cur.level then
      match rest with
      | [] => .error .assertionError
      | p :: rs => insertAux level create (pushChild p (closeFrame cur)) rs
    else
      .ok ({ create with level := cur.level + 1 } :: cur :: rest)

/-- embeds `Parser.insert` on the cursor spine; the returned spine has the
newly created node on top (it is what the source returns). -/
def insert (spine : List (Frame α)) (level : Nat) (create : Frame α) : Except PyErr (List (Frame α)) :=
  match spine with
  | [] => .error .assertionError
  | cur :: rest => insertAux level create cur rest

/-- folds the spine back into the tree it denotes (used when the cursor
is abandoned and for reading the final tree out of the parser state). -/
def collapseAux : Frame α → List (Frame α) → NTree α
  | f, [] => closeFrame f
  | f, g :: rest => collapseAux (pushChild g (closeFrame f)) rest

def collapseSpine (dflt : α) : List (Frame α) → NTree α
  | [] => NTree.node 0 dflt NForest.nil
  | f :: rest => collapseAux f rest

/-- payload of a `HeadingNode`: its title and the root of its private
text-line tree (`textNode`, absent until the first text line).  The level
0 root `Node` of the parser is represented with an empty title. -/
structure HInfo : Type where
  title : List Char
  textNode : Option (NTree (List Span))

abbrev TTree := NTree (List Span)

abbrev HTree := NTree HInfo

abbrev TFrame := Frame (List Span)

abbrev HFrame := Frame HInfo

/-- the mutable state of class `Parser`: the heading-tree spine from
`currentHeading` down to `root`, and the text-tree spine from
`currentText` down to the active heading's `textNode` root (`none` when
`currentText` is `None`). -/
structure ParserState : Type where
  hspine : List HFrame
  tspine : Option (List TFrame)

/-- `Parser.__init__`: `root = currentHeading = Node(None, 0)` and
`currentText = None`. -/
def initState : ParserState :=
  { hspine := [{ level := 0, payload := { title := [], textNode := none }, children := .nil }]
    tspine := none }

/-- stores the live text tree into the heading that owns it (the current
top frame: in the source the assignment `currentHeading.textNode = ...`
happened when the text root was created, and `currentHeading` has not
moved since) and clears `currentText`. -/
def commitText (st : ParserState) : ParserState :=
  match st.tspine, st.hspine with
  | some sp, top :: rest =>
    { hspine := { top with payload := { top.payload with textNode := some (collapseSpine [] sp) } } :: rest
      tspine := none }
  | _, _ => { st with tspine := none }

/-! ### The document parser -/

/-- Python 2 `\s` on byte strings. -/
def pySpace (c : Char) : Bool :=
  decide (c = ' ' ∨ c = '\t' ∨ c = '\n' ∨ c = '\r' ∨ c = '\x0b' ∨ c = '\x0c')

/-- Python `str.strip()`. -/
def pyStrip (s : List Char) : List Char :=
  ((s.dropWhile pySpace).reverse.dropWhile pySpace).reverse

/-- embeds `re.match('([=]+)([^=]+)', line)`: at least one leading `=`,
then at least one non-`=` character; the second group is the maximal
non-`=` run after the `=` run.  `none` is Python's `None` (on which
`.group` raises `AttributeError`). -/
def headingMatch (line : List Char) : Option (Nat × List Char) :=
  let k := (line.takeWhile (fun c => c == '=')).length
  let rest := line.drop k
  if k = 0 ∨ rest = [] then none
  else some (k, rest.takeWhile (fun c => c != '='))

/-- embeds `re.match(r'([\s]*)\* (.+)', line)`: optional whitespace, a
literal `* `, then at least one character; returns the whitespace count
and the bullet content. -/
def bulletMatch (line : List Char) : Option (Nat × List Char) :=
  let ws := (line.takeWhile pySpace).length
  match line.drop ws with
  | '*' :: ' ' :: c :: cs => some (ws, c :: cs)
  | _ => none

/-- embeds `Parser.parseHeading`: match the heading regex (an all-`=`
line makes the match `None` and `.group` raise), insert the new
`HeadingNode` starting from `currentHeading`, make it current, clear
`currentText`. -/
def parseHeading (st : ParserState) (line : List Char) : Except PyErr ParserState :=
  match headingMatch line with
  | none => .error .attributeError
  | some (level, raw) =>
    let title := pyStrip raw
    let st1 := commitText st
    match insert st1.hspine level { level := level, payload := { title := title, textNode := none }, children := .nil } with
    | .error e => .error e
    | .ok sp => .ok { hspine := sp, tspine := none }

/-- the cursor spine `parseTextLine` works on: the live `currentText`
spine, or a fresh level-0 text root `Node(None, 0)` when `currentText` is
unset (the `if not self.currentHeading.textNode or not self.currentText`
branch: the first disjunct is subsumed, since a live text spine always
belongs to the current heading). -/
def tspOf (st : ParserState) : List TFrame :=
  match st.tspine with
  | some sp => sp
  | none => [{ level := 0, payload := [], children := .nil }]

/-- embeds `Parser.parseTextLine`.  When `currentHeading` is still the
bare root `Node` (no heading parsed yet), reading its missing `textNode`
attribute raises `AttributeError`.  Otherwise a fresh text root is made
when `currentText` is unset; a plain line is appended as a level-1 child
of the cursor without moving it, a bullet line goes through the tree
inserter and becomes the cursor.  (The text spine is never empty; the
`[]` fallback is unreachable.) -/
def parseTextLine (st : ParserState) (line : List Char) : Except PyErr ParserState :=
  match st.hspine with
  | [] => .error .attributeError
  | [_] => .error .attributeError
  | _ :: _ :: _ =>
    match bulletMatch line with
    | none =>
      match tspOf st with
      | [] => .error .attributeError
      | f :: rest =>
        .ok { st with tspine := some (pushChild f (NTree.node 1 (parseText line) NForest.nil) :: rest) }
    | some (wsLen, content) =>
      match insert (tspOf st) (wsLen + 1) { level := wsLen + 1, payload := parseText content, children := .nil } with
      | .error e => .error e
      | .ok sp => .ok { st with tspine := some sp }

/-- embeds `Parser.parseLine`: lines starting with `=` are headings
(`line.startswith('=')`). -/
def parseLine (st : ParserState) (line : List Char) : Except PyErr ParserState :=
  if line.head? = some '=' then parseHeading st line else parseTextLine st line

/-- Python `str.split('\n')` (always at least one piece). -/
def splitNl : List Char → List (List Char)
  | [] => [[]]
  | c :: rest =>
    match splitNl rest with
    | [] => [[]]
    | h :: t => if c = '\n' then [] :: h :: t else (c :: h) :: t

def parseLines (st : ParserState) : List (List Char) → Except PyErr ParserState
  | [] => .ok st
  | l :: ls =>
    match parseLine st l with
    | .error e => .error e
    | .ok st2 => parseLines st2 ls

/-- embeds `Parser.parseString`: parse every `\n`-separated line in
order. -/
def parseString (doc : List Char) : Except PyErr ParserState :=
  parseLines initState (splitNl doc)

/-! ### Lookup helpers and the HTML renderer -/

/-- the committed heading tree of a parser state (root `Node` on top). -/
def finalize (st : ParserState) : HTree :=
  collapseSpine { title := [], textNode := none } (commitText st).hspine

def headingTitle (h : HTree) : List Char := h.payload.title

def headingTextNode (h : HTree) : Option TTree := h.payload.textNode

/-- embeds `Parser.getHeadings`: all headings under the root, pre-order,
pruned at `maxLevel` (0 means unlimited). -/
def getHeadings (t : HTree) (maxLevel : Nat) : List HTree :=
  dfFlattenDescendants t maxLevel

/-- embeds `Parser.getHeading`: first heading with the given title. -/
def getHeading (t : HTree) (title : List Char) : Option HTree :=
  (getHeadings t 0).find? (fun h => headingTitle h == title)

/-- embeds `HeadingNode.getTextLines`: all text nodes under `textNode`
(none when the heading never received text). -/
def getTextLines (h : HTree) : List TTree :=
  match headingTextNode h with
  | none => []
  | some t => dfFlattenDescendants t 0

/-- embeds the `htmlDecorator` closure of `getHtmlFromHeadings`: the
name-keyed decoration table. -/
def htmlDecorator (obj : Span) (prop : List Char) (text : List Char) : List Char :=
  if prop = "bold".data then
    if obj.bold then "<strong>".data ++ text ++ "</strong>".data else text
  else if prop = "italic".data then
    if obj.italic then "<em>".data ++ text ++ "</em>".data else text
  else if prop = "href".data then
    match obj.href with
    | some h => "<a href=\"".data ++ h ++ "\">".data ++ text ++ "</a>".data
    | none => text
  else text

/-- embeds `Text.decorate`: fold the decorator over `vars(self)`.  The
iteration order of the CPython 2.7 attribute dict for these keys is
`text`, `href`, `bold`, `italic` (string-hash slots 1, 3, 5, 6 of the
8-slot table; identical on 32- and 64-bit builds), `href` being present
only when the attribute was set. -/
def decorate (t : Span) : List Char :=
  let props : List (List Char) :=
    "text".data :: (match t.href with | some _ => ["href".data] | none => []) ++ ["bold".data, "italic".data]
  props.foldl (fun html prop => htmlDecorator t prop html) t.text

/-- embeds the `getHtmlFromLine` closure. -/
def getHtmlFromLine (line : List Span) : List Char :=
  line.foldl (fun html t => html ++ decorate t) []

/-- Python string repetition. -/
def repeatList : Nat → List Char → List Char
  | 0, _ => []
  | n + 1, l => l ++ repeatList n l

/-- embeds the `getHtmlFromHeading` closure: anchor, bold title, then
each text line indented by `2 * (level - 1)` non-breaking spaces. -/
def getHtmlFromHeading (h : HTree) : List Char :=
  "<a name=\"".data ++ (headingTitle h).filter (fun c => c != ' ') ++ "\"></a><strong>".data
    ++ headingTitle h ++ "</strong><br>".data
    ++ ((getTextLines h).foldl (fun html line =>
          html ++ repeatList ((line.level - 1) * 2) "&nbsp;".data
            ++ getHtmlFromLine line.payload ++ "<br>".data) [])

/-- embeds `getHtmlFromHeadings`: every flattened heading wrapped in a
paragraph. -/
def getHtmlFromHeadings (t : HTree) : List Char :=
  (dfFlattenNodeTree t 0).foldl (fun html h => html ++ "<p>".data ++ getHtmlFromHeading h ++ "</p>".data) []

/-! ### Specification-side definitions and invariants used in the
statements -/

/-- a cursor spine is well formed when the levels decrease by exactly one
from the cursor down to a level-0 root. -/
def spineOk : List (Frame α) → Bool
  | [] => false
  | [f] => decide (f.level = 0)
  | f :: g :: rest => decide (f.level = g.level + 1) && spineOk (g :: rest)

/-- children completed so far all carry level `frame.level + 1` and are
internally consecutive. -/
def frameOkB (f : Frame α) : Bool := consecutiveF f.level f.children

def framesOk (sp : List (Frame α)) : Bool := sp.all frameOkB

/-- a line is benign for the heading regex: if it starts with `=` the
heading match succeeds (the line is not all `=` characters). -/
def goodLine (l : List Char) : Bool :=
  if l.head? = some '=' then (headingMatch l).isSome else true

def tspineOk (st : ParserState) : Bool :=
  match st.tspine with
  | none => true
  | some sp => spineOk sp

/-- the invariant the document parser maintains: both cursor spines are
well formed and every heading frame's completed children are
consecutive. -/
def stInv (st : ParserState) : Bool :=
  spineOk st.hspine && framesOk st.hspine && tspineOk st

/-- the committed heading tree of a successfully parsed document. -/
def parsedTree (doc : List Char) : Option HTree :=
  (parseString doc).toOption.map finalize

/-- Modelled from the spec: conditional tag wrapper, for stating the
nesting order of span decoration. -/
def wrapTag (b : Bool) (o c t : List Char) : List Char :=
  if b then o ++ t ++ c else t

/-- Modelled from the spec: the link wrapper of span decoration. -/
def wrapLink (h : Option (List Char)) (t : List Char) : List Char :=
  match h with
  | some u => "<a href=\"".data ++ u ++ "\">".data ++ t ++ "</a>".data
  | none => t

/-! ### Shape lemmas for the scanner -/

theorem rfindPair_bound (m : Char) : ∀ (l : List Char) (j : Nat), rfindPair m l = some j → j + 2 ≤ l.length := by
  intro l
  induction l with
  | nil => intro j h; simp [rfindPair] at h
  | cons c rest ih =>
    intro j h
    cases rest with
    | nil => simp [rfindPair] at h
    | cons c2 r2 =>
      simp only [rfindPair] at h
      cases hr : rfindPair m (c2 :: r2) with
      | some j2 =>
        rw [hr] at h
        injection h with h
        have h2 := ih j2 hr
        simp only [List.length_cons] at h2 ⊢
        omega
      | none =>
        rw [hr] at h
        by_cases hc : c = m ∧ c2 = m
        · rw [if_pos hc] at h
          injection h with h
          simp only [List.length_cons]
          omega
        · rw [if_neg hc] at h
          exact absurd h (by simp)

theorem firstIdx_bound (p : Char → Bool) : ∀ (l : List Char) (j : Nat), firstIdx p l = some j → j < l.length := by
  intro l
  induction l with
  | nil => intro j h; simp [firstIdx] at h
  | cons c rest ih =>
    intro j h
    simp only [firstIdx] at h
    by_cases hc : p c
    · rw [if_pos hc] at h
      injection h with h
      simp only [List.length_cons]
      omega
    · rw [if_neg hc] at h
      cases hr : firstIdx p rest with
      | some j2 =>
        rw [hr] at h
        simp only [Option.map_some'] at h
        injection h with h
        have h2 := ih j2 hr
        simp only [List.length_cons]
        omega
      | none =>
        rw [hr] at h
        simp at h

theorem findOpener_le : ∀ (s : List Char), findOpener s ≤ s.length := by
  intro s
  induction s with
  | nil => simp [findOpener]
  | cons c rest ih =>
    cases rest with
    | nil => simp [findOpener]
    | cons c2 r2 =>
      simp only [findOpener]
      by_cases hc : isOpener c c2
      · rw [if_pos hc]; omega
      · rw [if_neg hc]
        simp only [List.length_cons] at ih ⊢
        omega

theorem findOpener_head (a b : Char) (rest : List Char) (h : 1 ≤ findOpener (a :: b :: rest)) :
    isOpener a b = false := by
  by_cases hc : isOpener a b
  · simp [findOpener, hc] at h
  · simpa using hc

/-- what a successful paired-marker alternative looks like. -/
theorem tryFmt_some (m : Char) (mk : List Char → Span)
    (hmk : ∀ g, (mk g).text = g) :
    ∀ (s : List Char) (n : Nat) (osp : Option Span), tryFmt m mk s = some (n, osp) →
      4 ≤ n ∧ n ≤ s.length ∧
      ∀ sp, osp = some sp → sp.text ≠ [] ∧ sp.text.length + 4 ≤ n := by
  intro s n osp h
  match s with
  | [] => simp [tryFmt] at h
  | [c] => simp [tryFmt] at h
  | c1 :: c2 :: rest =>
    simp only [tryFmt] at h
    by_cases hc : c1 = m ∧ c2 = m
    · rw [if_pos hc] at h
      cases hr : rfindPair m rest with
      | some j =>
        rw [hr] at h
        injection h with h
        injection h with hn hsp
        have hb := rfindPair_bound m rest j hr
        subst hn
        refine ⟨by omega, by simp only [List.length_cons]; omega, ?_⟩
        intro sp hsp2
        rw [← hsp] at hsp2
        by_cases hz : rest.take j = []
        · rw [if_pos hz] at hsp2; exact absurd hsp2 (by simp)
        · rw [if_neg hz] at hsp2
          injection hsp2 with hsp2
          subst hsp2
          rw [hmk]
          refine ⟨hz, ?_⟩
          have : (rest.take j).length ≤ j := by
            simpa using List.length_take_le j rest
          omega
      | none => rw [hr] at h; exact absurd h (by simp)
    · rw [if_neg hc] at h; exact absurd h (by simp)

theorem tryLinkPiped_some :
    ∀ (s : List Char) (n : Nat) (osp : Option Span), tryLinkPiped s = some (n, osp) →
      5 ≤ n ∧ n ≤ s.length ∧
      ∀ sp, osp = some sp → sp.text ≠ [] ∧ sp.text.length + 5 ≤ n := by
  intro s n osp h
  match s with
  | [] => simp [tryLinkPiped] at h
  | [c] => simp [tryLinkPiped] at h
  | c1 :: c2 :: rest =>
    by_cases hc : c1 = '[' ∧ c2 = '['
    · obtain ⟨hc1, hc2⟩ := hc
      subst hc1; subst hc2
      cases hi : firstIdx (fun c => c == '|') rest with
      | none => simp [tryLinkPiped, hi] at h
      | some i =>
        cases hj : firstIdx (fun c => c == ']') (rest.drop (i + 1)) with
        | none => simp [tryLinkPiped, hi, hj] at h
        | some j =>
          cases hd : (rest.drop (i + 1)).drop (j + 1) with
          | nil => simp [tryLinkPiped, hi, hj, hd] at h
          | cons d ds =>
            by_cases hdc : d = ']'
            · subst hdc
              simp only [tryLinkPiped, hi, hj, hd] at h
              injection h with h
              injection h with hn hsp
              have hib := firstIdx_bound _ rest i hi
              have hjb := firstIdx_bound _ (rest.drop (i + 1)) j hj
              have hd2 := congrArg List.length hd
              simp only [List.length_drop, List.length_cons] at hd2
              subst hn
              refine ⟨by omega, by simp only [List.length_cons]; omega, ?_⟩
              intro sp hsp2
              rw [← hsp] at hsp2
              by_cases hz : (rest.drop (i + 1)).take j = []
              · rw [if_pos hz] at hsp2; exact absurd hsp2 (by simp)
              · rw [if_neg hz] at hsp2
                injection hsp2 with hsp2
                subst hsp2
                simp only [mkLinkSpan]
                refine ⟨hz, ?_⟩
                have : ((rest.drop (i + 1)).take j).length ≤ j := by
                  simpa using List.length_take_le j (rest.drop (i + 1))
                omega
            · simp [tryLinkPiped, hi, hj, hd, hdc] at h
    · simp [tryLinkPiped, hc] at h

theorem tryLinkBare_some :
    ∀ (s : List Char) (n : Nat) (osp : Option Span), tryLinkBare s = some (n, osp) →
      4 ≤ n ∧ n ≤ s.length ∧
      ∀ sp, osp = some sp → sp.text ≠ [] ∧ sp.text.length + 4 ≤ n := by
  intro s n osp h
  match s with
  | [] => simp [tryLinkBare] at h
  | [c] => simp [tryLinkBare] at h
  | c1 :: c2 :: rest =>
    by_cases hc : c1 = '[' ∧ c2 = '['
    · obtain ⟨hc1, hc2⟩ := hc
      subst hc1; subst hc2
      cases hj : firstIdx (fun c => c == ']') rest with
      | none => simp [tryLinkBare, hj] at h
      | some j =>
        cases hd : rest.drop (j + 1) with
        | nil => simp [tryLinkBare, hj, hd] at h
        | cons d ds =>
          by_cases hdc : d = ']'
          · subst hdc
            simp only [tryLinkBare, hj, hd] at h
            injection h with h
            injection h with hn hsp
            have hjb := firstIdx_bound _ rest j hj
            have hd2 := congrArg List.length hd
            simp only [List.length_drop, List.length_cons] at hd2
            subst hn
            refine ⟨by omega, by simp only [List.length_cons]; omega, ?_⟩
            intro sp hsp2
            rw [← hsp] at hsp2
            by_cases hz : rest.take j = []
            · rw [if_pos hz] at hsp2; exact absurd hsp2 (by simp)
            · rw [if_neg hz] at hsp2
              injection hsp2 with hsp2
              subst hsp2
              simp only [mkLinkSpan]
              refine ⟨hz, ?_⟩
              have : (rest.take j).length ≤ j := by
                simpa using List.length_take_le j rest
              omega
          · simp [tryLinkBare, hj, hd, hdc] at h
    · simp [tryLinkBare, hc] at h

/-- one regex match never reads past the remaining text, a zero-length
match appends nothing, and the span a match appends is non-empty and
strictly shorter than the remaining text unless it is the whole remaining
text (the full-line plain run). -/
theorem stepMatch_spec (s : List Char) :
    (stepMatch s).1 ≤ s.length ∧
    ((stepMatch s).1 = 0 → (stepMatch s).2 = none) ∧
    (∀ sp, (stepMatch s).2 = some sp →
      sp.text ≠ [] ∧ (sp.text.length < s.length ∨ (sp.text = s ∧ (stepMatch s).1 = s.length))) := by
  have hbold : ∀ g, (mkBold g).text = g := fun g => rfl
  have hital : ∀ g, (mkItalic g).text = g := fun g => rfl
  have hboth : ∀ g, (mkBoth g).text = g := fun g => rfl
  cases h1 : tryFmt '_' mkBold s with
  | some r =>
    obtain ⟨n, osp⟩ := r
    have hf := tryFmt_some '_' mkBold hbold s n osp h1
    simp only [stepMatch, h1]
    exact ⟨hf.2.1, fun h0 => by omega, fun sp hsp => by
      obtain ⟨hne, hlen⟩ := hf.2.2 sp hsp
      exact ⟨hne, Or.inl (by omega)⟩⟩
  | none =>
  cases h2 : tryFmt '~' mkItalic s with
  | some r =>
    obtain ⟨n, osp⟩ := r
    have hf := tryFmt_some '~' mkItalic hital s n osp h2
    simp only [stepMatch, h1, h2]
    exact ⟨hf.2.1, fun h0 => by omega, fun sp hsp => by
      obtain ⟨hne, hlen⟩ := hf.2.2 sp hsp
      exact ⟨hne, Or.inl (by omega)⟩⟩
  | none =>
  cases h3 : tryFmt '*' mkBoth s with
  | some r =>
    obtain ⟨n, osp⟩ := r
    have hf := tryFmt_some '*' mkBoth hboth s n osp h3
    simp only [stepMatch, h1, h2, h3]
    exact ⟨hf.2.1, fun h0 => by omega, fun sp hsp => by
      obtain ⟨hne, hlen⟩ := hf.2.2 sp hsp
      exact ⟨hne, Or.inl (by omega)⟩⟩
  | none =>
  cases h4 : tryLinkPiped s with
  | some r =>
    obtain ⟨n, osp⟩ := r
    have hf := tryLinkPiped_some s n osp h4
    simp only [stepMatch, h1, h2, h3, h4]
    exact ⟨hf.2.1, fun h0 => by omega, fun sp hsp => by
      obtain ⟨hne, hlen⟩ := hf.2.2 sp hsp
      exact ⟨hne, Or.inl (by omega)⟩⟩
  | none =>
  cases h5 : tryLinkBare s with
  | some r =>
    obtain ⟨n, osp⟩ := r
    have hf := tryLinkBare_some s n osp h5
    simp only [stepMatch, h1, h2, h3, h4, h5]
    exact ⟨hf.2.1, fun h0 => by omega, fun sp hsp => by
      obtain ⟨hne, hlen⟩ := hf.2.2 sp hsp
      exact ⟨hne, Or.inl (by omega)⟩⟩
  | none =>
    have hp := findOpener_le s
    simp only [stepMatch, h1, h2, h3, h4, h5, plainRun]
    refine ⟨hp, ?_, ?_⟩
    · intro h0
      rw [h0]
      simp
    · intro sp hsp
      by_cases hz : s.take (findOpener s) = []
      · rw [if_pos hz] at hsp
        exact absurd hsp (by simp)
      · rw [if_neg hz] at hsp
        injection hsp with hsp
        subst hsp
        refine ⟨hz, ?_⟩
        simp only [List.length_take]
        rcases Nat.lt_or_ge (findOpener s) s.length with hlt | hge
        · exact Or.inl (by omega)
        · have he : findOpener s = s.length := by omega
          rw [he]
          exact Or.inr ⟨List.take_length s, by simp [List.length_take]⟩

theorem scanF_nil (f : Nat) : scanF f [] = [] := by
  cases f <;> rfl

/-- the scanning loop is insensitive to extra fuel beyond the length of
the text (every iteration consumes at least one character). -/
theorem scanF_fuel : ∀ (f : Nat) (s : List Char), s.length ≤ f → scanF f s = scanF s.length s := by
  intro f
  induction f using Nat.strong_induction_on with
  | _ f ih =>
    intro s hs
    match f, s with
    | f, [] => rw [scanF_nil, scanF_nil]
    | 0, c :: cs => simp at hs
    | f + 1, c :: cs =>
      simp only [List.length_cons] at hs
      show scanF (f + 1) (c :: cs) = scanF (cs.length + 1) (c :: cs)
      simp only [scanF]
      by_cases h0 : (stepMatch (c :: cs)).1 = 0
      · rw [if_pos h0, if_pos h0]
      · rw [if_neg h0, if_neg h0]
        congr 1
        have hle := (stepMatch_spec (c :: cs)).1
        have hd : ((c :: cs).drop (stepMatch (c :: cs)).1).length ≤ cs.length := by
          simp only [List.length_drop, List.length_cons] at hle ⊢
          omega
        have e1 := ih f (by omega) ((c :: cs).drop (stepMatch (c :: cs)).1) (by omega)
        have e2 := ih cs.length (by omega) ((c :: cs).drop (stepMatch (c :: cs)).1) hd
        rw [e1, e2]

theorem scan_zero {s : List Char} (h : (stepMatch s).1 = 0) : scan s = [] := by
  match s with
  | [] => rw [scan, scanF_nil]
  | c :: cs =>
    show scanF (cs.length + 1) (c :: cs) = []
    simp only [scanF]
    rw [if_pos h]

theorem scan_cons {s : List Char} (hne : s ≠ []) (h : (stepMatch s).1 ≠ 0) :
    scan s = (stepMatch s).2.toList ++ scan (s.drop (stepMatch s).1) := by
  match s with
  | [] => exact absurd rfl hne
  | c :: cs =>
    show scanF (cs.length + 1) (c :: cs) = _
    simp only [scanF]
    rw [if_neg h]
    congr 1
    have hle := (stepMatch_spec (c :: cs)).1
    exact scanF_fuel cs.length _ (by
      simp only [List.length_drop, List.length_cons] at hle ⊢
      omega)

/-- every span the scanner collects has non-empty text, and is strictly
shorter than the scanned text except in the fixed-point case where it is
the only span and equals the whole text. -/
theorem scan_mem : ∀ (s : List Char) (r : Span), r ∈ scan s →
    r.text ≠ [] ∧ (r.text.length < s.length ∨ (scan s = [r] ∧ r.text = s)) := by
  suffices key : ∀ (n : Nat) (s : List Char), s.length = n → ∀ (r : Span), r ∈ scan s →
      r.text ≠ [] ∧ (r.text.length < s.length ∨ (scan s = [r] ∧ r.text = s)) by
    exact fun s => key s.length s rfl
  intro n
  induction n using Nat.strong_induction_on with
  | _ n ih =>
    intro s hn
    subst hn
    intro r hr
    match hs : s with
    | [] => rw [scan, scanF_nil] at hr; simp at hr
    | c :: cs =>
      by_cases h0 : (stepMatch (c :: cs)).1 = 0
      · rw [scan_zero h0] at hr; simp at hr
      · rw [scan_cons (by simp) h0] at hr
        rcases List.mem_append.mp hr with hr1 | hr2
        · have hsp : (stepMatch (c :: cs)).2 = some r := by
            cases hval : (stepMatch (c :: cs)).2 with
            | none => rw [hval] at hr1; simp at hr1
            | some sp => rw [hval] at hr1; simp at hr1; rw [hr1]
          obtain ⟨hne, hcase⟩ := (stepMatch_spec (c :: cs)).2.2 r hsp
          refine ⟨hne, ?_⟩
          rcases hcase with hlt | ⟨heq, hfull⟩
          · exact Or.inl hlt
          · refine Or.inr ⟨?_, heq⟩
            rw [scan_cons (by simp) h0, hfull]
            simp only [List.drop_length, scan, scanF_nil]
            rw [hsp]
            simp
        · have hlt : ((c :: cs).drop (stepMatch (c :: cs)).1).length < (c :: cs).length := by
            have hle := (stepMatch_spec (c :: cs)).1
            simp only [List.length_drop, List.length_cons] at hle ⊢
            omega
          obtain ⟨hne, hcase⟩ := ih _ hlt _ rfl r hr2
          refine ⟨hne, ?_⟩
          left
          rcases hcase with hlt2 | ⟨hscan, heq⟩
          · omega
          · rw [heq]
            simp only [List.length_drop]
            omega

theorem seqSpans_isSome : ∀ (l : List (Option (List Span))), (∀ o ∈ l, o.isSome) → (seqSpans l).isSome := by
  intro l
  induction l with
  | nil => intro _; simp [seqSpans]
  | cons o os ih =>
    intro h
    have ho := h o (by simp)
    have hos := ih (fun o2 ho2 => h o2 (by simp [ho2]))
    simp only [seqSpans]
    obtain ⟨a, ha⟩ := Option.isSome_iff_exists.mp ho
    obtain ⟨b, hb⟩ := Option.isSome_iff_exists.mp hos
    rw [ha, hb]
    simp [Option.bind]

theorem seqSpans_mem : ∀ (os : List (Option (List Span))) (l : List Span) (r : Span),
    seqSpans os = some l → r ∈ l → ∃ li, some li ∈ os ∧ r ∈ li := by
  intro os
  induction os with
  | nil =>
    intro l r h hr
    simp only [seqSpans] at h
    injection h with h
    rw [← h] at hr
    simp at hr
  | cons o os ih =>
    intro l r h hr
    cases ho : o with
    | none => rw [ho] at h; simp [seqSpans] at h
    | some a =>
      cases hos : seqSpans os with
      | none => rw [ho] at h; simp [seqSpans, hos] at h
      | some b =>
        rw [ho] at h
        simp only [seqSpans, hos, Option.bind, Option.map_some'] at h
        injection h with h
        rw [← h] at hr
        rcases List.mem_append.mp hr with h1 | h2
        · exact ⟨a, by simp [ho], h1⟩
        · obtain ⟨li, hli, hrli⟩ := ih b r hos h2
          exact ⟨li, by simp [hli], hrli⟩

/-- fuel one more than the length of the text always suffices for the
recursive re-parse of `parseText` (each re-parsed span is strictly
shorter unless the fixed point already fired). -/
theorem parseTextF_isSome : ∀ (f : Nat) (s : List Char), s.length < f → (parseTextF f s).isSome := by
  intro f
  induction f with
  | zero => intro s h; omega
  | succ n ih =>
    intro s h
    simp only [parseTextF]
    by_cases hb : isBase (scan s) s
    · rw [if_pos hb]; simp
    · rw [if_neg hb]
      apply seqSpans_isSome
      intro o ho
      obtain ⟨r, hr, hro⟩ := List.mem_map.mp ho
      rw [← hro]
      rw [Option.isSome_map']
      apply ih
      obtain ⟨hne, hcase⟩ := scan_mem s r hr
      rcases hcase with hlt | ⟨hscan, heq⟩
      · omega
      · exfalso
        apply hb
        rw [hscan]
        simp [isBase, heq]

/-- the result of `parseTextF` does not depend on the fuel once the fuel
exceeds the length of the text. -/
theorem parseTextF_mono : ∀ (f g : Nat) (s : List Char), s.length < f → s.length < g →
    parseTextF f s = parseTextF g s := by
  intro f
  induction f with
  | zero => intro g s h; omega
  | succ n ih =>
    intro g s hf hg
    cases g with
    | zero => omega
    | succ m =>
      simp only [parseTextF]
      by_cases hb : isBase (scan s) s
      · rw [if_pos hb, if_pos hb]
      · rw [if_neg hb, if_neg hb]
        congr 1
        apply List.map_congr_left
        intro r hr
        obtain ⟨hne, hcase⟩ := scan_mem s r hr
        have hlt : r.text.length < s.length := by
          rcases hcase with hlt | ⟨hscan, heq⟩
          · exact hlt
          · exfalso
            apply hb
            rw [hscan]
            simp [isBase, heq]
        rw [ih m r.text (by omega) (by omega)]

theorem parseTextF_eq_parseText (f : Nat) (s : List Char) (hf : s.length < f) :
    parseTextF f s = some (parseText s) := by
  rw [parseTextF_mono f (s.length + 1) s hf (by omega)]
  obtain ⟨l, hl⟩ := Option.isSome_iff_exists.mp (parseTextF_isSome (s.length + 1) s (by omega))
  rw [parseText, hl]
  simp

/-- every span `parseText` produces has non-empty text. -/
theorem parseTextF_text_ne : ∀ (f : Nat) (s : List Char) (l : List Span),
    parseTextF f s = some l → ∀ r ∈ l, r.text ≠ [] := by
  intro f
  induction f with
  | zero => intro s l h; simp [parseTextF] at h
  | succ n ih =>
    intro s l h r hr
    simp only [parseTextF] at h
    by_cases hb : isBase (scan s) s
    · rw [if_pos hb] at h
      injection h with h
      rw [← h] at hr
      exact (scan_mem s r hr).1
    · rw [if_neg hb] at h
      obtain ⟨li, hli, hrli⟩ := seqSpans_mem _ l r h hr
      obtain ⟨r0, hr0, ho⟩ := List.mem_map.mp hli
      cases hsub : parseTextF n r0.text with
      | none => rw [hsub] at ho; simp at ho
      | some l0 =>
        rw [hsub] at ho
        simp only [Option.map_some'] at ho
        injection ho with ho
        rw [← ho] at hrli
        obtain ⟨nr, hnr, hmerge⟩ := List.mem_map.mp hrli
        have hnrne := ih r0.text l0 hsub nr hnr
        rw [← hmerge]
        simp only [mergeWith]
        rw [if_neg hnrne]
        exact hnrne

theorem parseText_text_ne (s : List Char) : ∀ r ∈ parseText s, r.text ≠ [] := by
  intro r hr
  have h := parseTextF_eq_parseText (s.length + 1) s (by omega)
  exact parseTextF_text_ne (s.length + 1) s (parseText s) h r hr

/-! ### Tree inserter lemmas -/

theorem spineOk_cons_congr (x y : Frame α) (rest : List (Frame α)) (hl : x.level = y.level) :
    spineOk (x :: rest) = spineOk (y :: rest) := by
  cases rest with
  | nil => simp [spineOk, hl]
  | cons g rs => simp [spineOk, hl]

theorem spineOk_cons_of (x y : Frame α) (rest : List (Frame α)) (hl : x.level = y.level)
    (h : spineOk (y :: rest) = true) : spineOk (x :: rest) = true := by
  rw [spineOk_cons_congr x y rest hl]
  exact h

theorem pushChild_level (f : Frame α) (t : NTree α) : (pushChild f t).level = f.level := rfl

theorem closeFrame_level (f : Frame α) : (closeFrame f).level = f.level := rfl

theorem consecutiveF_nil (l : Nat) : consecutiveF (α := α) l NForest.nil = true := rfl

theorem spineOk_cons (f g : Frame α) (rest : List (Frame α)) :
    spineOk (f :: g :: rest) = true ↔ (f.level = g.level + 1 ∧ spineOk (g :: rest) = true) := by
  simp [spineOk]

theorem spineOk_single (f : Frame α) : spineOk [f] = true ↔ f.level = 0 := by
  simp [spineOk]

theorem framesOk_cons (f : Frame α) (rest : List (Frame α)) :
    framesOk (f :: rest) = true ↔ (frameOkB f = true ∧ framesOk rest = true) := by
  simp [framesOk]

theorem frameOkB_of_nil (f : Frame α) (h : f.children = NForest.nil) : frameOkB f = true := by
  simp [frameOkB, h, consecutiveF]

theorem consecutiveF_append : ∀ (fs gs : NForest α) (l : Nat),
    consecutiveF l (fs.append gs) = (consecutiveF l fs && consecutiveF l gs)
  | .nil, gs, l => by simp [NForest.append, consecutiveF]
  | .cons t ts, gs, l => by
    simp only [NForest.append, consecutiveF, consecutiveF_append ts gs l]
    cases decide (t.level = l + 1) <;> cases consecutiveT t <;> simp

theorem frameOkB_pushChild (p : Frame α) (t : NTree α)
    (hp : frameOkB p = true) (hl : t.level = p.level + 1) (ht : consecutiveT t = true) :
    frameOkB (pushChild p t) = true := by
  simp only [frameOkB, pushChild] at hp ⊢
  rw [consecutiveF_append, hp]
  simp [consecutiveF, hl, ht]

/-- the upward walk of the inserter pops frames and pushes one, so the
resulting spine is at most one frame longer. -/
theorem insertAux_length : ∀ (rest : List (Frame α)) (cur : Frame α) (level : Nat) (create : Frame α)
    (sp2 : List (Frame α)), insertAux level create cur rest = .ok sp2 → sp2.length ≤ rest.length + 2 := by
  intro rest
  induction rest with
  | nil =>
    intro cur level create sp2 h
    simp only [insertAux] at h
    by_cases h1 : level = cur.level + 1
    · rw [if_pos h1] at h
      injection h with h
      rw [← h]
      simp
    · rw [if_neg h1] at h
      by_cases h2 : level ≤ cur.level
      · rw [if_pos h2] at h
        exact absurd h (by simp)
      · rw [if_neg h2] at h
        injection h with h
        rw [← h]
        simp
  | cons p rs ih =>
    intro cur level create sp2 h
    simp only [insertAux] at h
    by_cases h1 : level = cur.level + 1
    · rw [if_pos h1] at h
      injection h with h
      rw [← h]
      simp
    · rw [if_neg h1] at h
      by_cases h2 : level ≤ cur.level
      · rw [if_pos h2] at h
        have := ih (pushChild p (closeFrame cur)) level create sp2 h
        simp only [List.length_cons] at this ⊢
        omega
      · rw [if_neg h2] at h
        injection h with h
        rw [← h]
        simp

theorem insert_length : ∀ (sp : List (Frame α)) (level : Nat) (create : Frame α) (sp2 : List (Frame α)),
    insert sp level create = .ok sp2 → sp2.length ≤ sp.length + 1 := by
  intro sp level create sp2 h
  cases sp with
  | nil => simp [insert] at h
  | cons cur rest =>
    simp only [insert] at h
    have := insertAux_length rest cur level create sp2 h
    simp only [List.length_cons]
    omega

/-- on a well-formed spine the inserter never hits the failed assert when
the requested level is at least 1: the walk stops strictly before the
level-0 root. -/
theorem insertAux_isOk : ∀ (rest : List (Frame α)) (cur : Frame α) (level : Nat) (create : Frame α),
    spineOk (cur :: rest) = true → 1 ≤ level →
    ∃ sp2, insertAux level create cur rest = .ok sp2 := by
  intro rest
  induction rest with
  | nil =>
    intro cur level create hsp hl
    have h0 := (spineOk_single cur).mp hsp
    simp only [insertAux]
    by_cases h1 : level = cur.level + 1
    · rw [if_pos h1]; exact ⟨_, rfl⟩
    · rw [if_neg h1]
      have h2 : ¬ level ≤ cur.level := by omega
      rw [if_neg h2]
      exact ⟨_, rfl⟩
  | cons p rs ih =>
    intro cur level create hsp hl
    obtain ⟨hcl, hrest⟩ := (spineOk_cons cur p rs).mp hsp
    simp only [insertAux]
    by_cases h1 : level = cur.level + 1
    · rw [if_pos h1]; exact ⟨_, rfl⟩
    · rw [if_neg h1]
      by_cases h2 : level ≤ cur.level
      · rw [if_pos h2]
        apply ih
        · rw [spineOk_cons_congr (pushChild p (closeFrame cur)) p rs (pushChild_level p _)]
          exact hrest
        · exact hl
      · rw [if_neg h2]
        exact ⟨_, rfl⟩

/-- a successful insertion yields a well-formed spine again, with the new
node on top (spine length at least 2: the walk never pops the root). -/
theorem insertAux_props : ∀ (rest : List (Frame α)) (cur : Frame α) (level : Nat) (create : Frame α)
    (sp2 : List (Frame α)), insertAux level create cur rest = .ok sp2 →
    spineOk (cur :: rest) = true → create.level = level →
    spineOk sp2 = true ∧ 2 ≤ sp2.length := by
  intro rest
  induction rest with
  | nil =>
    intro cur level create sp2 h hsp hcl
    simp only [insertAux] at h
    by_cases h1 : level = cur.level + 1
    · rw [if_pos h1] at h
      injection h with h
      rw [← h]
      refine ⟨?_, by simp⟩
      rw [spineOk_cons]
      exact ⟨by omega, hsp⟩
    · rw [if_neg h1] at h
      by_cases h2 : level ≤ cur.level
      · rw [if_pos h2] at h
        exact absurd h (by simp)
      · rw [if_neg h2] at h
        injection h with h
        rw [← h]
        refine ⟨?_, by simp⟩
        rw [spineOk_cons]
        exact ⟨rfl, hsp⟩
  | cons p rs ih =>
    intro cur level create sp2 h hsp hcl
    simp only [insertAux] at h
    by_cases h1 : level = cur.level + 1
    · rw [if_pos h1] at h
      injection h with h
      rw [← h]
      refine ⟨?_, by simp⟩
      rw [spineOk_cons]
      exact ⟨by omega, hsp⟩
    · rw [if_neg h1] at h
      by_cases h2 : level ≤ cur.level
      · rw [if_pos h2] at h
        apply ih _ _ _ _ h _ hcl
        obtain ⟨hcl2, hrest⟩ := (spineOk_cons cur p rs).mp hsp
        rw [spineOk_cons_congr (pushChild p (closeFrame cur)) p rs (pushChild_level p _)]
        exact hrest
      · rw [if_neg h2] at h
        injection h with h
        rw [← h]
        refine ⟨?_, by simp⟩
        rw [spineOk_cons]
        exact ⟨rfl, hsp⟩

/-- a successful insertion keeps every frame's completed children
consecutive when the created node starts childless. -/
theorem insertAux_frames : ∀ (rest : List (Frame α)) (cur : Frame α) (level : Nat) (create : Frame α)
    (sp2 : List (Frame α)), insertAux level create cur rest = .ok sp2 →
    spineOk (cur :: rest) = true → framesOk (cur :: rest) = true → create.children = NForest.nil →
    framesOk sp2 = true := by
  intro rest
  induction rest with
  | nil =>
    intro cur level create sp2 h hsp hfr hcc
    simp only [insertAux] at h
    by_cases h1 : level = cur.level + 1
    · rw [if_pos h1] at h
      injection h with h
      rw [← h]
      rw [framesOk_cons]
      exact ⟨frameOkB_of_nil _ hcc, hfr⟩
    · rw [if_neg h1] at h
      by_cases h2 : level ≤ cur.level
      · rw [if_pos h2] at h
        exact absurd h (by simp)
      · rw [if_neg h2] at h
        injection h with h
        rw [← h]
        rw [framesOk_cons]
        exact ⟨frameOkB_of_nil _ hcc, hfr⟩
  | cons p rs ih =>
    intro cur level create sp2 h hsp hfr hcc
    simp only [insertAux] at h
    by_cases h1 : level = cur.level + 1
    · rw [if_pos h1] at h
      injection h with h
      rw [← h]
      rw [framesOk_cons]
      exact ⟨frameOkB_of_nil _ hcc, hfr⟩
    · rw [if_neg h1] at h
      by_cases h2 : level ≤ cur.level
      · rw [if_pos h2] at h
        obtain ⟨hcl2, hrest⟩ := (spineOk_cons cur p rs).mp hsp
        obtain ⟨hfc, hfr2⟩ := (framesOk_cons cur (p :: rs)).mp hfr
        obtain ⟨hfp, hfr3⟩ := (framesOk_cons p rs).mp hfr2
        apply ih _ _ _ _ h
        · rw [spineOk_cons_congr (pushChild p (closeFrame cur)) p rs (pushChild_level p _)]
          exact hrest
        · rw [framesOk_cons]
          refine ⟨?_, hfr3⟩
          apply frameOkB_pushChild
          · exact hfp
          · rw [closeFrame_level]
            exact hcl2
          · show consecutiveF cur.level cur.children = true
            exact hfc
        · exact hcc
      · rw [if_neg h2] at h
        injection h with h
        rw [← h]
        rw [framesOk_cons]
        exact ⟨frameOkB_of_nil _ hcc, hfr⟩

/-- folding a well-formed spine back yields a tree with consecutive
levels rooted at level 0. -/
theorem collapseAux_ok : ∀ (rest : List (Frame α)) (f : Frame α),
    spineOk (f :: rest) = true → framesOk (f :: rest) = true →
    consecutiveT (collapseAux f rest) = true ∧ (collapseAux f rest).level = 0 := by
  intro rest
  induction rest with
  | nil =>
    intro f hsp hfr
    have h0 := (spineOk_single f).mp hsp
    obtain ⟨hfc, _⟩ := (framesOk_cons f []).mp hfr
    simp only [collapseAux, closeFrame]
    exact ⟨hfc, h0⟩
  | cons g rs ih =>
    intro f hsp hfr
    obtain ⟨hcl, hrest⟩ := (spineOk_cons f g rs).mp hsp
    obtain ⟨hfc, hfr2⟩ := (framesOk_cons f (g :: rs)).mp hfr
    obtain ⟨hfg, hfr3⟩ := (framesOk_cons g rs).mp hfr2
    simp only [collapseAux]
    apply ih
    · rw [spineOk_cons_congr (pushChild g (closeFrame f)) g rs (pushChild_level g _)]
      exact hrest
    · rw [framesOk_cons]
      refine ⟨?_, hfr3⟩
      apply frameOkB_pushChild
      · exact hfg
      · rw [closeFrame_level]
        exact hcl
      · show consecutiveF f.level f.children = true
        exact hfc

/-! ### Parser state invariant -/

theorem stInv_parts (st : ParserState) : stInv st = true ↔
    (spineOk st.hspine = true ∧ framesOk st.hspine = true ∧ tspineOk st = true) := by
  simp [stInv, Bool.and_eq_true, and_assoc]

theorem spineOk_ne_nil {sp : List (Frame α)} (h : spineOk sp = true) : sp ≠ [] := by
  intro hn
  rw [hn] at h
  simp [spineOk] at h

theorem headingMatch_pos (line : List Char) (k : Nat) (r : List Char)
    (h : headingMatch line = some (k, r)) : 1 ≤ k := by
  simp only [headingMatch] at h
  by_cases hc : (line.takeWhile (fun c => c == '=')).length = 0 ∨
      line.drop (line.takeWhile (fun c => c == '=')).length = []
  · rw [if_pos hc] at h
    exact absurd h (by simp)
  · rw [if_neg hc] at h
    injection h with h
    have h1 := congrArg Prod.fst h
    simp only at h1
    push_neg at hc
    omega

theorem insert_isOk (sp : List (Frame α)) (level : Nat) (create : Frame α)
    (hsp : spineOk sp = true) (hl : 1 ≤ level) :
    ∃ sp2, insert sp level create = .ok sp2 := by
  cases sp with
  | nil => exact absurd rfl (spineOk_ne_nil hsp)
  | cons cur rest =>
    obtain ⟨sp2, h⟩ := insertAux_isOk rest cur level create hsp hl
    exact ⟨sp2, by simp only [insert, h]⟩

theorem insert_props (sp : List (Frame α)) (level : Nat) (create : Frame α)
    (sp2 : List (Frame α)) (h : insert sp level create = .ok sp2)
    (hsp : spineOk sp = true) (hcl : create.level = level) :
    spineOk sp2 = true ∧ 2 ≤ sp2.length := by
  cases sp with
  | nil => simp [insert] at h
  | cons cur rest =>
    simp only [insert] at h
    exact insertAux_props rest cur level create sp2 h hsp hcl

theorem insert_frames (sp : List (Frame α)) (level : Nat) (create : Frame α)
    (sp2 : List (Frame α)) (h : insert sp level create = .ok sp2)
    (hsp : spineOk sp = true) (hfr : framesOk sp = true) (hcc : create.children = NForest.nil) :
    framesOk sp2 = true := by
  cases sp with
  | nil => simp [insert] at h
  | cons cur rest =>
    simp only [insert] at h
    exact insertAux_frames rest cur level create sp2 h hsp hfr hcc

theorem commitText_shape (st : ParserState) (h1 : spineOk st.hspine = true)
    (h2 : framesOk st.hspine = true) :
    spineOk (commitText st).hspine = true ∧ framesOk (commitText st).hspine = true ∧
    (commitText st).tspine = none ∧ (commitText st).hspine.length = st.hspine.length := by
  obtain ⟨hs, ts⟩ := st
  simp only at h1 h2
  cases ts with
  | none =>
    cases hs with
    | nil => exact ⟨h1, h2, rfl, rfl⟩
    | cons top rest => exact ⟨h1, h2, rfl, rfl⟩
  | some sp =>
    cases hs with
    | nil => exact ⟨h1, h2, rfl, rfl⟩
    | cons top rest =>
      refine ⟨?_, ?_, rfl, rfl⟩
      · exact spineOk_cons_of _ top rest rfl h1
      · show framesOk ({ top with payload := _ } :: rest) = true
        rw [framesOk_cons] at h2 ⊢
        exact h2

theorem parseHeading_inv (st : ParserState) (line : List Char) (st2 : ParserState)
    (hinv : stInv st = true) (h : parseHeading st line = .ok st2) :
    stInv st2 = true ∧ 2 ≤ st2.hspine.length := by
  obtain ⟨h1, h2, h3⟩ := (stInv_parts st).mp hinv
  obtain ⟨hc1, hc2, hc3, hc4⟩ := commitText_shape st h1 h2
  simp only [parseHeading] at h
  cases hm : headingMatch line with
  | none => simp [hm] at h
  | some kr =>
    obtain ⟨level, raw⟩ := kr
    simp only [hm] at h
    cases hins : insert (commitText st).hspine level
        { level := level, payload := { title := pyStrip raw, textNode := none }, children := .nil } with
    | error e => simp [hins] at h
    | ok sp =>
      simp only [hins] at h
      injection h with h
      rw [← h]
      obtain ⟨hp1, hp2⟩ := insert_props _ _ _ _ hins hc1 rfl
      have hp3 := insert_frames _ _ _ _ hins hc1 hc2 rfl
      exact ⟨(stInv_parts _).mpr ⟨hp1, hp3, rfl⟩, hp2⟩

theorem parseHeading_isOk (st : ParserState) (line : List Char)
    (hinv : stInv st = true) (hm : (headingMatch line).isSome = true) :
    ∃ st2, parseHeading st line = .ok st2 := by
  obtain ⟨h1, h2, h3⟩ := (stInv_parts st).mp hinv
  obtain ⟨hc1, hc2, hc3, hc4⟩ := commitText_shape st h1 h2
  obtain ⟨kr, hkr⟩ := Option.isSome_iff_exists.mp hm
  obtain ⟨level, raw⟩ := kr
  obtain ⟨sp2, hins⟩ := insert_isOk (commitText st).hspine level
    { level := level, payload := { title := pyStrip raw, textNode := none }, children := .nil }
    hc1 (headingMatch_pos line level raw hkr)
  refine ⟨{ hspine := sp2, tspine := none }, ?_⟩
  simp only [parseHeading, hkr, hins]

theorem tspOf_ok (st : ParserState) (h3 : tspineOk st = true) : spineOk (tspOf st) = true := by
  cases hts : st.tspine with
  | none => simp [tspOf, hts, spineOk]
  | some sp =>
    simp only [tspOf, hts]
    simpa [tspineOk, hts] using h3

theorem parseTextLine_inv (st : ParserState) (line : List Char) (st2 : ParserState)
    (hinv : stInv st = true) (h : parseTextLine st line = .ok st2) :
    stInv st2 = true ∧ st2.hspine = st.hspine := by
  obtain ⟨h1, h2, h3⟩ := (stInv_parts st).mp hinv
  have htsp := tspOf_ok st h3
  cases hsh : st.hspine with
  | nil => rw [parseTextLine, hsh] at h; simp at h
  | cons f hs2 =>
  cases hs2 with
  | nil => rw [parseTextLine, hsh] at h; simp at h
  | cons g rest =>
  rw [hsh] at h1 h2
  rw [parseTextLine, hsh] at h
  cases hb : bulletMatch line with
  | none =>
    simp only [hb] at h
    cases htl : tspOf st with
    | nil => rw [htl] at htsp; simp [spineOk] at htsp
    | cons f2 rest2 =>
      simp only [htl] at h
      injection h with h
      rw [← h]
      refine ⟨(stInv_parts _).mpr ⟨h1, h2, ?_⟩, rfl⟩
      show spineOk (pushChild f2 _ :: rest2) = true
      apply spineOk_cons_of _ f2 rest2 (pushChild_level f2 _)
      rw [htl] at htsp
      exact htsp
  | some wc =>
    obtain ⟨wsLen, content⟩ := wc
    simp only [hb] at h
    cases hins : insert (tspOf st) (wsLen + 1)
        { level := wsLen + 1, payload := parseText content, children := .nil } with
    | error e => simp [hins] at h
    | ok sp2 =>
      simp only [hins] at h
      injection h with h
      rw [← h]
      refine ⟨(stInv_parts _).mpr ⟨h1, h2, ?_⟩, rfl⟩
      exact (insert_props _ _ _ _ hins htsp rfl).1

theorem parseTextLine_isOk (st : ParserState) (line : List Char)
    (hinv : stInv st = true) (hlen : 2 ≤ st.hspine.length) :
    ∃ st2, parseTextLine st line = .ok st2 := by
  obtain ⟨h1, h2, h3⟩ := (stInv_parts st).mp hinv
  have htsp := tspOf_ok st h3
  cases hsh : st.hspine with
  | nil => rw [hsh] at hlen; simp at hlen
  | cons f hs2 =>
  cases hs2 with
  | nil => rw [hsh] at hlen; simp at hlen
  | cons g rest =>
  rw [parseTextLine, hsh]
  cases hb : bulletMatch line with
  | none =>
    simp only [hb]
    cases htl : tspOf st with
    | nil => rw [htl] at htsp; simp [spineOk] at htsp
    | cons f2 rest2 =>
      simp only [htl]
      exact ⟨_, rfl⟩
  | some wc =>
    obtain ⟨wsLen, content⟩ := wc
    simp only [hb]
    obtain ⟨sp2, hins⟩ := insert_isOk (tspOf st) (wsLen + 1)
      { level := wsLen + 1, payload := parseText content, children := .nil } htsp (by omega)
    simp only [hins]
    exact ⟨_, rfl⟩

theorem parseLine_inv (st : ParserState) (line : List Char) (st2 : ParserState)
    (hinv : stInv st = true) (h : parseLine st line = .ok st2) :
    stInv st2 = true ∧ (2 ≤ st.hspine.length → 2 ≤ st2.hspine.length) := by
  rw [parseLine] at h
  by_cases hc : line.head? = some '='
  · rw [if_pos hc] at h
    obtain ⟨hi, hl⟩ := parseHeading_inv st line st2 hinv h
    exact ⟨hi, fun _ => hl⟩
  · rw [if_neg hc] at h
    obtain ⟨hi, hl⟩ := parseTextLine_inv st line st2 hinv h
    exact ⟨hi, fun h2 => by rw [hl]; exact h2⟩

theorem parseLine_isOk (st : ParserState) (line : List Char)
    (hinv : stInv st = true) (hlen : 2 ≤ st.hspine.length) (hg : goodLine line = true) :
    ∃ st2, parseLine st line = .ok st2 := by
  rw [parseLine]
  by_cases hc : line.head? = some '='
  · rw [if_pos hc]
    rw [goodLine, if_pos hc] at hg
    exact parseHeading_isOk st line hinv hg
  · rw [if_neg hc]
    exact parseTextLine_isOk st line hinv hlen

theorem parseLines_inv : ∀ (ls : List (List Char)) (st st2 : ParserState),
    stInv st = true → parseLines st ls = .ok st2 → stInv st2 = true := by
  intro ls
  induction ls with
  | nil =>
    intro st st2 hinv h
    simp only [parseLines] at h
    injection h with h
    rw [← h]
    exact hinv
  | cons l ls ih =>
    intro st st2 hinv h
    simp only [parseLines] at h
    cases hp : parseLine st l with
    | error e => simp [hp] at h
    | ok st1 =>
      simp only [hp] at h
      exact ih st1 st2 (parseLine_inv st l st1 hinv hp).1 h

theorem parseLines_isOk : ∀ (ls : List (List Char)) (st : ParserState),
    stInv st = true → 2 ≤ st.hspine.length → (∀ l ∈ ls, goodLine l = true) →
    ∃ st2, parseLines st ls = .ok st2 := by
  intro ls
  induction ls with
  | nil =>
    intro st hinv hlen hg
    exact ⟨st, rfl⟩
  | cons l ls ih =>
    intro st hinv hlen hg
    obtain ⟨st1, hst1⟩ := parseLine_isOk st l hinv hlen (hg l (by simp))
    obtain ⟨hi1, hl1⟩ := parseLine_inv st l st1 hinv hst1
    obtain ⟨st2, hst2⟩ := ih st1 hi1 (hl1 hlen) (fun l2 hl2 => hg l2 (by simp [hl2]))
    refine ⟨st2, ?_⟩
    simp only [parseLines, hst1]
    exact hst2

theorem initState_inv : stInv initState = true := rfl

theorem parseString_inv (doc : List Char) (st : ParserState)
    (h : parseString doc = .ok st) : stInv st = true :=
  parseLines_inv (splitNl doc) initState st initState_inv h

/-- a parsed document's committed heading tree has consecutive levels and
a level-0 root. -/
theorem finalize_consecutive (st : ParserState) (h : stInv st = true) :
    consecutiveT (finalize st) = true ∧ (finalize st).level = 0 := by
  obtain ⟨h1, h2, h3⟩ := (stInv_parts st).mp h
  obtain ⟨hc1, hc2, hc3, hc4⟩ := commitText_shape st h1 h2
  rw [finalize]
  cases hsh : (commitText st).hspine with
  | nil => exact absurd hsh (spineOk_ne_nil hc1)
  | cons f rest =>
    rw [hsh] at hc1 hc2
    simp only [collapseSpine]
    exact collapseAux_ok rest f hc1 hc2

/-! ### Traversal lemmas -/

theorem mem_flatten0_self : ∀ (t : NTree α), t ∈ dfFlattenNodeTree t 0 := by
  intro t
  cases t with
  | node l p cs =>
    simp only [dfFlattenNodeTree]
    rw [if_neg (by simp)]
    simp

theorem dfFlattenForest_append : ∀ (fs gs : NForest α) (m : Nat),
    dfFlattenForest (fs.append gs) m = dfFlattenForest fs m ++ dfFlattenForest gs m
  | .nil, gs, m => by simp [NForest.append, dfFlattenForest]
  | .cons t ts, gs, m => by
    simp only [NForest.append, dfFlattenForest, dfFlattenForest_append ts gs m]
    simp [List.append_assoc]

/-- a child appended anywhere along the spine ends up among the
descendants of the collapsed tree (so `getTextLines` yields it). -/
theorem collapse_descend : ∀ (rest : List (Frame α)) (f : Frame α) (n : NTree α),
    n ∈ dfFlattenForest f.children 0 → n ∈ dfFlattenDescendants (collapseAux f rest) 0 := by
  intro rest
  induction rest with
  | nil =>
    intro f n hn
    simp only [collapseAux, dfFlattenDescendants, closeFrame, NTree.children]
    exact hn
  | cons g rs ih =>
    intro f n hn
    simp only [collapseAux]
    apply ih
    show n ∈ dfFlattenForest (g.children.append (NForest.cons (closeFrame f) NForest.nil)) 0
    rw [dfFlattenForest_append]
    apply List.mem_append.mpr
    right
    simp only [dfFlattenForest, List.append_nil]
    cases hf : closeFrame f with
    | node l p cs =>
      simp only [dfFlattenNodeTree]
      rw [if_neg (by simp)]
      apply List.mem_cons.mpr
      right
      have : cs = f.children := by
        rw [closeFrame] at hf
        injection hf with h1 h2 h3
        exact h3.symm
      rw [this]
      exact hn

mutual
/-- every node of the unlimited flattening of a consecutive tree sits at
or below the root's level. -/
theorem flatten0_level_T : ∀ (t : NTree α), consecutiveT t = true →
    ∀ n ∈ dfFlattenNodeTree t 0, t.level ≤ n.level
  | .node l p cs, h, n, hn => by
    simp only [dfFlattenNodeTree] at hn
    rw [if_neg (by simp)] at hn
    simp only [List.mem_cons] at hn
    rcases hn with hn | hn
    · rw [hn]
    · have hf := flatten0_level_F l cs (by simpa [consecutiveT] using h) n hn
      show l ≤ n.level
      omega
theorem flatten0_level_F : ∀ (l : Nat) (fs : NForest α), consecutiveF l fs = true →
    ∀ n ∈ dfFlattenForest fs 0, l + 1 ≤ n.level
  | l, .nil, h, n, hn => by simp [dfFlattenForest] at hn
  | l, .cons t ts, h, n, hn => by
    simp only [dfFlattenForest, List.mem_append] at hn
    simp only [consecutiveF, Bool.and_eq_true, decide_eq_true_eq] at h
    rcases hn with hn | hn
    · have ht := flatten0_level_T t h.1.2 n hn
      omega
    · exact flatten0_level_F l ts h.2 n hn
end

mutual
/-- depth-limited flattening of a consecutive tree is exactly the
unlimited pre-order flattening filtered to the nodes within the limit. -/
theorem flatten_filter_T : ∀ (t : NTree α) (k : Nat), consecutiveT t = true → k ≠ 0 →
    dfFlattenNodeTree t k = (dfFlattenNodeTree t 0).filter (fun n => decide (n.level ≤ k))
  | .node l p cs, k, h, hk => by
    by_cases hl : k < l
    · simp only [dfFlattenNodeTree]
      rw [if_pos ⟨hk, hl⟩, if_neg (by simp)]
      symm
      apply List.filter_eq_nil_iff.mpr
      intro n hn
      simp only [List.mem_cons] at hn
      simp only [decide_eq_true_eq]
      rcases hn with hn | hn
      · rw [hn]
        show ¬ (NTree.node l p cs).level ≤ k
        simp only [NTree.level]
        omega
      · have := flatten0_level_F l cs (by simpa [consecutiveT] using h) n hn
        omega
    · simp only [dfFlattenNodeTree]
      rw [if_neg (by intro hc; exact hl hc.2), if_neg (by simp)]
      rw [List.filter_cons]
      rw [if_pos (by simp only [decide_eq_true_eq]; show (NTree.node l p cs).level ≤ k; simp only [NTree.level]; omega)]
      congr 1
      exact flatten_filter_F cs l k (by simpa [consecutiveT] using h) hk
theorem flatten_filter_F : ∀ (fs : NForest α) (l k : Nat), consecutiveF l fs = true → k ≠ 0 →
    dfFlattenForest fs k = (dfFlattenForest fs 0).filter (fun n => decide (n.level ≤ k))
  | .nil, l, k, h, hk => by simp [dfFlattenForest]
  | .cons t ts, l, k, h, hk => by
    simp only [consecutiveF, Bool.and_eq_true, decide_eq_true_eq] at h
    simp only [dfFlattenForest, List.filter_append]
    rw [flatten_filter_T t k h.1.2 hk, flatten_filter_F ts l k h.2 hk]
end

/-! ### Unmatched-opener lemmas -/

theorem take_pos_ne_nil (c : Char) (l : List Char) (p : Nat) (hp : 1 ≤ p) :
    (c :: l).take p ≠ [] := by
  cases p with
  | zero => omega
  | succ q => simp

/-- when the text does not itself begin with an opener, every marker and
link alternative fails and the plain-run alternative matches up to the
first opener. -/
theorem stepMatch_plain (s : List Char) (hs : s ≠ []) (hp : 1 ≤ findOpener s) :
    stepMatch s =
      (findOpener s, some { text := s.take (findOpener s), bold := false, italic := false, href := none }) := by
  match s with
  | [] => exact absurd rfl hs
  | [c] =>
    simp [stepMatch, tryFmt, tryLinkPiped, tryLinkBare, plainRun, findOpener]
  | c1 :: c2 :: rest =>
    have hiso := findOpener_head c1 c2 rest hp
    simp only [isOpener, decide_eq_false_iff_not] at hiso
    push_neg at hiso
    have h1 : ¬ (c1 = '_' ∧ c2 = '_') := by
      intro hc
      exact (hiso.2.1 hc.1) hc.2
    have h2 : ¬ (c1 = '~' ∧ c2 = '~') := by
      intro hc
      exact (hiso.2.2.1 hc.1) hc.2
    have h3 : ¬ (c1 = '*' ∧ c2 = '*') := by
      intro hc
      exact (hiso.1 hc.1) hc.2
    have h4 : ¬ (c1 = '[' ∧ c2 = '[') := by
      intro hc
      exact (hiso.2.2.2 hc.1) hc.2
    simp only [stepMatch, tryFmt, tryLinkPiped, tryLinkBare, if_neg h1, if_neg h2, if_neg h3,
      if_neg h4, plainRun]
    rw [if_neg (take_pos_ne_nil c1 (c2 :: rest) (findOpener (c1 :: c2 :: rest)) hp)]

/-- an unmatched `__` opener at the scan position: the paired alternative
cannot close, the plain run matches the empty string, and the loop
breaks. -/
theorem stepMatch_break (post : List Char) (h3 : rfindPair '_' post = none) :
    stepMatch ('_' :: '_' :: post) = (0, none) := by
  simp [stepMatch, tryFmt, tryLinkPiped, tryLinkBare, plainRun, findOpener, isOpener, h3]

/-- a line whose first opener is an unmatched `__` scans to just the
plain prefix: the marker and everything after it are dropped. -/
theorem scan_unmatched (pre post : List Char) (hpre : pre ≠ [])
    (hop : findOpener (pre ++ '_' :: '_' :: post) = pre.length)
    (hpair : rfindPair '_' post = none) :
    scan (pre ++ '_' :: '_' :: post) =
      [{ text := pre, bold := false, italic := false, href := none }] := by
  have hs : pre ++ '_' :: '_' :: post ≠ [] := by simp [hpre]
  have hlp : 1 ≤ pre.length := by
    cases pre with
    | nil => exact absurd rfl hpre
    | cons c cs => simp
  have hp : 1 ≤ findOpener (pre ++ '_' :: '_' :: post) := by rw [hop]; exact hlp
  have hsm := stepMatch_plain _ hs hp
  have hn0 : (stepMatch (pre ++ '_' :: '_' :: post)).1 ≠ 0 := by
    rw [hsm, hop]
    omega
  rw [scan_cons hs hn0, hsm]
  simp only [hop, Option.toList_some, List.take_left, List.drop_left]
  rw [scan_zero (by rw [stepMatch_break post hpair])]
  simp

theorem mergeWith_plain (nr : Span) (t : List Char) (hne : nr.text ≠ []) :
    mergeWith nr { text := t, bold := false, italic := false, href := none } = nr := by
  obtain ⟨tx, b, i, h⟩ := nr
  simp only [mergeWith]
  simp only at hne
  rw [if_neg hne]
  cases h <;> simp

/-- dropping an unmatched `__` tail: inline parsing of
`pre ++ "__" ++ post` equals inline parsing of `pre` alone, whenever the
`__` at the boundary is the first opener and never closes. -/
theorem parseText_unmatched (pre post : List Char) (hpre : pre ≠ [])
    (hop : findOpener (pre ++ '_' :: '_' :: post) = pre.length)
    (hpair : rfindPair '_' post = none) :
    parseText (pre ++ '_' :: '_' :: post) = parseText pre := by
  have hscan := scan_unmatched pre post hpre hop hpair
  have hlen : pre.length < (pre ++ '_' :: '_' :: post).length := by
    simp
  have hnes : pre ≠ pre ++ '_' :: '_' :: post := by
    intro he
    have := congrArg List.length he
    simp at this
  have heval : parseTextF ((pre ++ '_' :: '_' :: post).length + 1) (pre ++ '_' :: '_' :: post)
      = some (parseText pre) := by
    simp only [parseTextF, hscan]
    rw [if_neg (by simp [isBase, hnes])]
    simp only [List.map_cons, List.map_nil]
    rw [parseTextF_eq_parseText _ pre hlen]
    simp only [Option.map_some', seqSpans, Option.bind, Option.map_some']
    have hmap : (parseText pre).map
        (fun nr => mergeWith nr { text := pre, bold := false, italic := false, href := none })
        = parseText pre := by
      rw [List.map_congr_left (fun nr hnr => mergeWith_plain nr pre (parseText_text_ne pre nr hnr))]
      exact List.map_id _
    rw [hmap]
    simp [seqSpans]
  rw [parseText, heval]
  rfl

theorem splitNl_ne_nil : ∀ (s : List Char), splitNl s ≠ [] := by
  intro s
  cases s with
  | nil => simp [splitNl]
  | cons c rest =>
    simp only [splitNl]
    split
    · simp
    · split <;> simp

/-! ### The claims -/

/-- C1 (corrected).  The claim says `parseString` never raises on any
input; in fact a text line before the first heading raises
`AttributeError` (the bare root `Node` has no `textNode` attribute), and
so does a heading line of only `=` characters (`re.match` returns `None`
and `.group` raises).  Amended: `parseString` completes without raising
on every document whose first line begins with `=` and in which every
line beginning with `=` also contains a non-`=` character; skipped
heading levels, unterminated inline markers and empty lines after the
first heading are indeed resolved silently within such documents. -/
theorem c1_parseString_no_error (doc : List Char)
    (hfirst : (splitNl doc).headI.head? = some '=')
    (hgood : ∀ l ∈ splitNl doc, goodLine l = true) :
    ∃ st, parseString doc = .ok st := by
  have hne := splitNl_ne_nil doc
  cases heq : splitNl doc with
  | nil => exact absurd heq hne
  | cons l0 ls =>
    rw [heq] at hfirst hgood
    simp only [List.headI] at hfirst
    have hg0 : goodLine l0 = true := hgood l0 (by simp)
    have hm : (headingMatch l0).isSome = true := by
      rw [goodLine, if_pos hfirst] at hg0
      exact hg0
    obtain ⟨st1, hst1⟩ := parseHeading_isOk initState l0 initState_inv hm
    have hpl : parseLine initState l0 = .ok st1 := by
      rw [parseLine, if_pos hfirst]
      exact hst1
    obtain ⟨hi1, hl1⟩ := parseHeading_inv initState l0 st1 initState_inv hst1
    obtain ⟨st2, hst2⟩ := parseLines_isOk ls st1 hi1 hl1 (fun l hl => hgood l (by simp [hl]))
    refine ⟨st2, ?_⟩
    rw [parseString, heq]
    simp only [parseLines, hpl]
    exact hst2

/-- C1 witness: a well-formed two-line document parses successfully. -/
theorem c1_witness : (parseString "=A\nx".data).toOption.isSome = true := by
  obtain ⟨st, hst⟩ := c1_parseString_no_error "=A\nx".data (by decide) (by decide)
  rw [hst]
  rfl

/-- C1 counterexample: a text line before the first heading is fatal —
`parseString "hello"` raises `AttributeError` (reading `textNode` off the
bare root `Node`), contradicting the claim that such lines are always
resolved by leniency policies. -/
theorem c1_counterexample : parseString "hello".data = .error PyErr.attributeError := by rfl

/-- C2 (corrected).  The claim swaps two markers: in the code the group
unpacked into the variable `italic` is the `~~...~~` group and the
`\*\*...\*\*` group is the `both` one.  Amended: `__...__` yields
bold-only spans, `~~...~~` yields italic-only spans, `**...**` yields
combined bold-and-italic spans; `parseInline("**bold**")` is one span
with text "bold", bold=true, italic=true, no href, and
`parseInline("~~both~~")` is one span with bold=false, italic=true. -/
theorem c2_marker_styles :
    parseText "__bold__".data = [{ text := "bold".data, bold := true, italic := false, href := none }]
    ∧ parseText "~~both~~".data = [{ text := "both".data, bold := false, italic := true, href := none }]
    ∧ parseText "**bold**".data = [{ text := "bold".data, bold := true, italic := true, href := none }] := by
  refine ⟨?_, ?_, ?_⟩ <;> decide

/-- C2 counterexample: `parseInline("**bold**")` does not produce the
span the claim demands (bold=true, italic=false): the `**` marker sets
both flags. -/
theorem c2_counterexample :
    parseText "**bold**".data ≠ [{ text := "bold".data, bold := true, italic := false, href := none }] := by
  decide

/-- C3 (corrected).  The claim says a plain text line is appended to the
text-tree ROOT; the code appends it to `self.currentText` — the cursor,
which a preceding bullet line may have moved off the root.  Amended: a
plain line is appended as a stored-level-1 child of the node the text
cursor points to (the root only until a bullet moves the cursor), and
the cursor itself is left unchanged. -/
theorem c3_plain_line_at_cursor (st : ParserState) (line : List Char)
    (f g : HFrame) (rest : List HFrame) (tf : TFrame) (trest : List TFrame)
    (hh : st.hspine = f :: g :: rest) (ht : tspOf st = tf :: trest)
    (hb : bulletMatch line = none) :
    parseTextLine st line =
      .ok { st with tspine := some (pushChild tf (NTree.node 1 (parseText line) NForest.nil) :: trest) } := by
  rw [parseTextLine, hh]
  simp only [hb, ht]

/-- C3 witness: a plain line lands as a child of the current cursor
frame, cursor spine shape unchanged. -/
theorem c3_witness :
    parseTextLine
      { hspine := [⟨1, ⟨"A".data, none⟩, NForest.nil⟩, ⟨0, ⟨[], none⟩, NForest.nil⟩]
        tspine := some [⟨1, [], NForest.nil⟩, ⟨0, [], NForest.nil⟩] } ('y' :: [])
    = .ok { hspine := [⟨1, ⟨"A".data, none⟩, NForest.nil⟩, ⟨0, ⟨[], none⟩, NForest.nil⟩]
            tspine := some [⟨1, [], NForest.cons (NTree.node 1 (parseText ('y' :: [])) NForest.nil) NForest.nil⟩,
                            ⟨0, [], NForest.nil⟩] } :=
  c3_plain_line_at_cursor
    { hspine := [⟨1, ⟨"A".data, none⟩, NForest.nil⟩, ⟨0, ⟨[], none⟩, NForest.nil⟩]
      tspine := some [⟨1, [], NForest.nil⟩, ⟨0, [], NForest.nil⟩] }
    ('y' :: []) ⟨1, ⟨"A".data, none⟩, NForest.nil⟩ ⟨0, ⟨[], none⟩, NForest.nil⟩ []
    ⟨1, [], NForest.nil⟩ [⟨0, [], NForest.nil⟩] rfl rfl rfl

/-- C3 counterexample: in `"=A\n* b\nx"` the plain line `x` becomes the
child of the bullet node `b` (the cursor), not a second child of the
text-tree root: the root has exactly one child. -/
theorem c3_counterexample :
    ((parsedTree "=A\n* b\nx".data).bind (fun t => getHeading t "A".data)).bind headingTextNode
      = some (NTree.node 0 []
          (NForest.cons
            (NTree.node 1 [{ text := "b".data, bold := false, italic := false, href := none }]
              (NForest.cons
                (NTree.node 1 [{ text := "x".data, bold := false, italic := false, href := none }]
                  NForest.nil)
                NForest.nil))
            NForest.nil))
    ∧ (((parsedTree "=A\n* b\nx".data).bind (fun t => getHeading t "A".data)).bind headingTextNode).map
        (fun r => r.children.toList.length) = some 1 := by
  exact ⟨by rfl, by rfl⟩

/-- C4 (confirmed).  A requested level strictly greater than
`current.level + 1` never raises: the node is created as a direct child
of the current node with its stored level clamped to
`current.level + 1`; and the document `"=A\n===B"` produces the level-3
heading `B` as a direct child of `A` with stored level 2. -/
theorem c4_insert_clamps :
    (∀ (α : Type) (cur : Frame α) (rest : List (Frame α)) (level : Nat) (create : Frame α),
      cur.level + 1 < level →
      insert (cur :: rest) level create = .ok ({ create with level := cur.level + 1 } :: cur :: rest))
    ∧ ((parsedTree "=A\n===B".data).map (fun t =>
        (getHeadings t 0).map (fun h => (headingTitle h, h.level)))
      = some [("A".data, 1), ("B".data, 2)])
    ∧ (((parsedTree "=A\n===B".data).bind (fun t => getHeading t "A".data)).map (fun h =>
        (dfFlattenDescendants h 0).map (fun c => (headingTitle c, c.level)))
      = some [("B".data, 2)]) := by
  refine ⟨?_, by rfl, by rfl⟩
  intro α cur rest level create h
  rw [insert]
  unfold insertAux
  rw [if_neg (by omega), if_neg (by omega)]

/-- C4 witness: inserting at level 3 under a level-0 node clamps the new
node to level 1. -/
theorem c4_witness :
    insert [(⟨0, ([] : List Span), NForest.nil⟩ : TFrame)] 3 ⟨3, [], NForest.nil⟩
      = .ok [⟨1, [], NForest.nil⟩, ⟨0, [], NForest.nil⟩] :=
  c4_insert_clamps.1 (List Span) ⟨0, [], NForest.nil⟩ [] 3 ⟨3, [], NForest.nil⟩ (by decide)

/-- C5 (corrected).  The claim that a heading's stored level always
equals the number of leading `=` characters of its declaring line is
false: the Tree Inserter clamps skipped levels (see the counterexample).
Amended: every HeadingNode inserted as a child satisfies
`level = parent.level + 1` — so levels decrease by one along every
parent chain down to the level-0 root — and the stored level equals the
`=`-count only when no clamping occurred. -/
theorem c5_levels_consecutive (doc : List Char) (st : ParserState)
    (h : parseString doc = .ok st) :
    consecutiveT (finalize st) = true ∧ (finalize st).level = 0 :=
  finalize_consecutive st (parseString_inv doc st h)

/-- C5 witness: the heading tree of `"=A\n==B"` has consecutive levels
under a level-0 root. -/
theorem c5_witness :
    (parseString "=A\n==B".data).toOption.map
      (fun st => (consecutiveT (finalize st), (finalize st).level)) = some (true, 0) := by
  obtain ⟨st, hst⟩ : ∃ st, parseString "=A\n==B".data = .ok st := ⟨_, rfl⟩
  have h := c5_levels_consecutive _ st hst
  rw [hst]
  simp [Except.toOption, h.1, h.2]

/-- C5 counterexample: in `"=A\n===B"` the heading `B` is declared with
three `=` characters but its stored level is 2 (clamped), so the claimed
invariant `level = number of leading '='` fails. -/
theorem c5_counterexample :
    ((parsedTree "=A\n===B".data).bind (fun t => getHeading t "B".data)).map NTree.level = some 2
    ∧ ("===B".data.takeWhile (fun c => c == '=')).length = 3 := by
  exact ⟨by rfl, by rfl⟩

/-- C6 (corrected).  The claim says an unmatched `__` or `[[` survives as
a plain-text span, so the concatenated output still contains the marker.
In fact the trailing "anything else" alternative matches the EMPTY
string just before the unmatched opener (its lookahead stops at any
opener), the zero-length match breaks the scan, and the marker together
with everything after it is dropped.  Amended: no error is raised; the
spans collected before the unmatched opener are returned and the opener
and the rest of the line are silently discarded — parsing
`pre ++ "__" ++ post` (first opener at the boundary, `__` never closed)
equals parsing `pre` alone. -/
theorem c6_unmatched_opener (pre post : List Char) (hpre : pre ≠ [])
    (hop : findOpener (pre ++ '_' :: '_' :: post) = pre.length)
    (hpair : rfindPair '_' post = none) :
    parseText (pre ++ '_' :: '_' :: post) = parseText pre :=
  parseText_unmatched pre post hpre hop hpair

/-- C6 witness: `"ab__cd"` parses to the same spans as `"ab"`. -/
theorem c6_witness : parseText ("ab".data ++ '_' :: '_' :: "cd".data) = parseText "ab".data :=
  c6_unmatched_opener "ab".data "cd".data (by decide) (by decide) (by decide)

/-- C6 counterexample: `parseInline("__a")` returns no spans at all — the
concatenation of the returned span texts is empty and does not contain
the unmatched `__` marker. -/
theorem c6_counterexample :
    parseText ('_' :: '_' :: 'a' :: []) = []
    ∧ (parseText ('_' :: '_' :: 'a' :: [])).foldl (fun acc r => acc ++ r.text) [] = [] := by
  exact ⟨by decide, by decide⟩

/-- C7 (confirmed).  On a tree whose levels are consecutive (the
invariant of every tree this parser builds), depth-limited flattening
with `maxLevel = k ≠ 0` yields exactly the nodes of level at most `k`,
each exactly once, in pre-order — it equals the unlimited pre-order
flattening filtered to levels `≤ k` — and it short-circuits, yielding
nothing of a subtree whose root exceeds `k`. -/
theorem c7_flatten_filter :
    (∀ (α : Type) (t : NTree α) (k : Nat), consecutiveT t = true → k ≠ 0 →
      dfFlattenNodeTree t k = (dfFlattenNodeTree t 0).filter (fun n => decide (n.level ≤ k)))
    ∧ (∀ (α : Type) (t : NTree α) (k : Nat), k ≠ 0 → k < t.level → dfFlattenNodeTree t k = []) := by
  constructor
  · intro α t k h hk
    exact flatten_filter_T t k h hk
  · intro α t k hk hl
    cases t with
    | node l p cs =>
      simp only [NTree.level] at hl
      simp only [dfFlattenNodeTree]
      rw [if_pos ⟨hk, hl⟩]

/-- C7 witness: a three-level chain flattened with `maxLevel = 1` keeps
exactly the nodes of level at most 1, and a level-2 subtree is pruned
whole. -/
theorem c7_witness :
    dfFlattenNodeTree
        (NTree.node 0 (0 : Nat)
          (NForest.cons (NTree.node 1 0 (NForest.cons (NTree.node 2 0 NForest.nil) NForest.nil))
            NForest.nil)) 1
      = (dfFlattenNodeTree
          (NTree.node 0 (0 : Nat)
            (NForest.cons (NTree.node 1 0 (NForest.cons (NTree.node 2 0 NForest.nil) NForest.nil))
              NForest.nil)) 0).filter (fun n => decide (n.level ≤ 1))
    ∧ dfFlattenNodeTree (NTree.node 2 (0 : Nat) NForest.nil) 1 = [] :=
  ⟨c7_flatten_filter.1 Nat _ 1 (by rfl) (by decide),
   c7_flatten_filter.2 Nat _ 1 (by decide) (by decide)⟩

/-- C8 (confirmed).  Parsing always terminates: fuel one past the text
length always suffices for the recursive re-parse (the fixed point stops
identical re-parses, shorter spans bound the rest), the scanning loop is
already stable at `length` fuel (every match advances or breaks), and a
tree insertion's upward walk only pops frames, so the spine grows by at
most one — it is bounded by the current depth. -/
theorem c8_termination :
    (∀ s : List Char, (parseTextF (s.length + 1) s).isSome = true)
    ∧ (∀ s : List Char, scanF (s.length + 1) s = scanF s.length s)
    ∧ (∀ (α : Type) (sp : List (Frame α)) (level : Nat) (create : Frame α),
        match insert sp level create with
        | .ok sp2 => sp2.length ≤ sp.length + 1
        | .error _ => True) := by
  refine ⟨?_, ?_, ?_⟩
  · intro s
    exact parseTextF_isSome (s.length + 1) s (by omega)
  · intro s
    exact scanF_fuel (s.length + 1) s (by omega)
  · intro α sp level create
    cases hins : insert sp level create with
    | ok sp2 => exact insert_length sp level create sp2 hins
    | error e => trivial

/-- C9 (corrected).  Decoration is deterministic and purely a function
of the span's fields, but the nesting order the claim states is wrong:
`Text.decorate` iterates the CPython 2.7 attribute dict in slot order
`text`, `href`, `bold`, `italic`, and since the LAST applied wrapper is
outermost, italic is outermost, then bold, with the link INNERMOST —
not link outermost then bold then italic. -/
theorem c9_decorate_order : ∀ s : Span,
    decorate s = wrapTag s.italic "<em>".data "</em>".data
      (wrapTag s.bold "<strong>".data "</strong>".data (wrapLink s.href s.text)) := by
  intro s
  obtain ⟨t, b, i, h⟩ := s
  cases h <;> cases b <;> cases i <;> rfl

/-- C9 counterexample: a span with all three decorations renders with
the link innermost and italic outermost, not in the claimed order. -/
theorem c9_counterexample :
    decorate { text := "x".data, bold := true, italic := true, href := some "u".data }
      = "<em><strong><a href=\"u\">x</a></strong></em>".data
    ∧ decorate { text := "x".data, bold := true, italic := true, href := some "u".data }
      ≠ "<a href=\"u\"><strong><em>x</em></strong></a>".data := by
  exact ⟨by decide, by decide⟩

/-- C10 (confirmed).  With a heading active, an empty input line (also
the empty final line a trailing newline produces) appends a
`TextLineNode` with an empty span list to the cursor of the active
heading's text tree; such nodes are kept, every node appended along the
spine is yielded by `getTextLines`, and an empty line renders as a blank
line (a bare `<br>`). -/
theorem c10_empty_line :
    (∀ (st : ParserState) (f g : HFrame) (rest : List HFrame) (tf : TFrame) (trest : List TFrame),
      st.hspine = f :: g :: rest → tspOf st = tf :: trest →
      parseTextLine st [] =
        .ok { st with tspine := some (pushChild tf (NTree.node 1 [] NForest.nil) :: trest) })
    ∧ (∀ (tf : TFrame) (trest : List TFrame) (n : TTree) (ttl : List Char) (lvl : Nat) (cs : NForest HInfo),
        n ∈ getTextLines (NTree.node lvl ⟨ttl, some (collapseSpine [] (pushChild tf n :: trest))⟩ cs))
    ∧ getHtmlFromHeading
        (NTree.node 1 ⟨"A".data, some (NTree.node 0 [] (NForest.cons (NTree.node 1 [] NForest.nil) NForest.nil))⟩
          NForest.nil)
      = "<a name=\"A\"></a><strong>A</strong><br><br>".data := by
  refine ⟨?_, ?_, by rfl⟩
  · intro st f g rest tf trest hh ht
    rw [parseTextLine, hh]
    have hb : bulletMatch ([] : List Char) = none := rfl
    have hpt : parseText ([] : List Char) = [] := rfl
    simp only [hb, ht, hpt]
  · intro tf trest n ttl lvl cs
    simp only [getTextLines, headingTextNode, NTree.payload, collapseSpine]
    apply collapse_descend trest (pushChild tf n) n
    show n ∈ dfFlattenForest (tf.children.append (NForest.cons n NForest.nil)) 0
    rw [dfFlattenForest_append]
    apply List.mem_append.mpr
    right
    simp only [dfFlattenForest, List.append_nil]
    exact mem_flatten0_self n

/-- C10 witness: an empty line under a fresh heading appends the empty
text node to the fresh text root. -/
theorem c10_witness :
    parseTextLine
      { hspine := [⟨1, ⟨"A".data, none⟩, NForest.nil⟩, ⟨0, ⟨[], none⟩, NForest.nil⟩]
        tspine := none } []
    = .ok { hspine := [⟨1, ⟨"A".data, none⟩, NForest.nil⟩, ⟨0, ⟨[], none⟩, NForest.nil⟩]
            tspine := some [⟨0, [], NForest.cons (NTree.node 1 [] NForest.nil) NForest.nil⟩] } :=
  c10_empty_line.1
    { hspine := [⟨1, ⟨"A".data, none⟩, NForest.nil⟩, ⟨0, ⟨[], none⟩, NForest.nil⟩], tspine := none }
    ⟨1, ⟨"A".data, none⟩, NForest.nil⟩ ⟨0, ⟨[], none⟩, NForest.nil⟩ []
    ⟨0, [], NForest.nil⟩ [] rfl rfl

end Wtex
